import Mathlib

/-!
Verification of the quantile selection engine of `cpp/src/quantiles/quantiles.cu`.

The engine is shallowly embedded: C++ doubles are modelled as rationals (ℚ),
a column is a list of (underlying datum, validity-bit) pairs — the datum is
present even under a null slot, exactly as the raw device buffer is — and the
collaborators that live outside this translation unit (the sorting engine,
the row comparator, the interpolation helpers, the scalar container) are
modelled from their specified contracts.
-/

namespace CudfQuantiles

/-- Per-column ordering direction (`cudf::order`). -/
inductive Order
| ascending
| descending
deriving DecidableEq

/-- Null placement (`cudf::null_order`): nulls before or after valid data. -/
inductive NullOrder
| before
| after
deriving DecidableEq

/-- Interpolation policy (`cudf::interpolation`), a closed set of variants. -/
inductive Interpolation
| linear
| midpoint
| lower
| higher
| nearest
deriving DecidableEq

/-- One column slot: the underlying datum and its validity bit.  A null slot
still carries an (arbitrary) underlying datum, as the raw buffer does. -/
abbrev Entry := ℚ × Bool

/-- A column view: the ordered list of slots. -/
abbrev Column := List Entry

/-- `column_view::size()`. -/
def size (c : Column) : Nat := c.length

/-- `column_view::null_count()`: number of slots whose validity bit is unset. -/
def null_count (c : Column) : Nat := c.countP (fun e => !e.2)

/-- `column_view::nullable()`: the column carries nulls. -/
def nullable (c : Column) : Bool := decide (0 < null_count c)

/-- `get_array_value` at index `i` of the raw data buffer starting at the head
of `c`: reads the underlying datum, ignoring validity (quantiles.cu lines
55-66, a raw element read). -/
def dataAt (c : Column) (i : Nat) : ℚ := (c.getD i (0, true)).1

/-- `std::nearbyint` under the default FE_TONEAREST mode: round half to even. -/
def nearbyint (x : ℚ) : ℤ :=
  let f := ⌊x⌋
  let c := ⌈x⌉
  if x - f < c - x then f
  else if c - x < x - f then c
  else if f % 2 = 0 then f else c

/-- The `quantile_index` struct (quantiles.cu lines 68-85). -/
structure QuantileIndex where
  lower_bound : ℤ
  upper_bound : ℤ
  nearest : ℤ
  fraction : ℚ
deriving DecidableEq

/-- The `quantile_index` constructor: clamp the quantile to [0,1], scale by
`count - 1`, and take floor / ceil / nearbyint and the fractional part. -/
def quantile_index (count : Nat) (quantile : ℚ) : QuantileIndex :=
  let q := min (max quantile 0) 1
  let val := q * ((count : ℚ) - 1)
  { lower_bound := ⌊val⌋
    upper_bound := ⌈val⌉
    nearest := nearbyint val
    fraction := val - ⌊val⌋ }

namespace interpolate

/-- Modelled from the spec: `interpolate::linear` of quantiles_util.hpp (not in
this translation unit): LINEAR is `a + fraction × (b − a)` computed in the
output floating-point type. -/
def linear (a b fraction : ℚ) : ℚ := a + fraction * (b - a)

/-- Modelled from the spec: `interpolate::midpoint` of quantiles_util.hpp (not
in this translation unit): MIDPOINT is `(a + b) / 2`. -/
def midpoint (a b : ℚ) : ℚ := (a + b) / 2

end interpolate

/-- `select_quantile` (quantiles.cu lines 92-142): short-circuit when fewer
than two elements, else compute the quantile index and combine the neighbours
fetched through the sort map according to the interpolation mode. -/
def select_quantile (get : Nat → ℚ) (sortmap : Nat → Nat) (sz : Nat)
    (quantile : ℚ) (interp : Interpolation) : ℚ :=
  if sz < 2 then get 0
  else
    let idx := quantile_index sz quantile
    match interp with
    | Interpolation.linear =>
        interpolate.linear (get (sortmap idx.lower_bound.toNat))
          (get (sortmap idx.upper_bound.toNat)) idx.fraction
    | Interpolation.midpoint =>
        interpolate.midpoint (get (sortmap idx.lower_bound.toNat))
          (get (sortmap idx.upper_bound.toNat))
    | Interpolation.lower => get (sortmap idx.lower_bound.toNat)
    | Interpolation.higher => get (sortmap idx.upper_bound.toNat)
    | Interpolation.nearest => get (sortmap idx.nearest.toNat)

/-- Strict value comparison under an ordering direction. -/
def ltVal (o : Order) (a b : ℚ) : Bool :=
  match o with
  | Order.ascending => decide (a < b)
  | Order.descending => decide (b < a)

/-- Modelled from the spec: the single-column lexicographic comparator of
row_operators.cuh (not in this translation unit), folding null presence into
the comparison: nulls compare as smallest when placement is `before` and as
largest when `after`; two nulls are equivalent; valid values compare under
the ordering direction. -/
def ltNullable (o : Order) (no : NullOrder) (x y : Entry) : Bool :=
  if !x.2 && !y.2 then false
  else if !x.2 then decide (no = NullOrder.before)
  else if !y.2 then decide (no = NullOrder.after)
  else ltVal o x.1 y.1

/-- The comparator `extrema` instantiates: the nullable row comparator when
the column is nullable, otherwise the plain value comparator
(quantiles.cu lines 159-163 and 198-207). -/
def colCmp (c : Column) (o : Order) (no : NullOrder) : Entry → Entry → Bool :=
  if nullable c then ltNullable o no else fun x y => ltVal o x.1 y.1

/-- `thrust::min_element`: fold keeping the first slot no later one strictly
precedes under the comparator. -/
def minEntry (lt : Entry → Entry → Bool) : List Entry → Entry → Entry
  | [], best => best
  | e :: rest, best => minEntry lt rest (if lt e best then e else best)

/-- `thrust::max_element`: fold keeping the first slot no later one strictly
follows under the comparator. -/
def maxEntry (lt : Entry → Entry → Bool) : List Entry → Entry → Entry
  | [], best => best
  | e :: rest, best => maxEntry lt rest (if lt best e then e else best)

/-- `extrema<.., extrema::min, ..>` (quantiles.cu lines 144-172): position of
the comparator-minimal row, then a raw data read at that position. -/
def extremaMin (c : Column) (o : Order) (no : NullOrder) : ℚ :=
  match c with
  | [] => 0
  | e :: rest => (minEntry (colCmp (e :: rest) o no) rest e).1

/-- `extrema<.., extrema::max, ..>` (quantiles.cu lines 144-172): position of
the comparator-maximal row, then a raw data read at that position. -/
def extremaMax (c : Column) (o : Order) (no : NullOrder) : ℚ :=
  match c with
  | [] => 0
  | e :: rest => (maxEntry (colCmp (e :: rest) o no) rest e).1

/-- Modelled from the spec: the external sorting engine (`sorted_order` then
`gather`, not in this translation unit): a stable sort honouring the
per-column direction and null placement. -/
def sortColumn (c : Column) (o : Order) (no : NullOrder) : Column :=
  List.insertionSort (fun x y => ltNullable o no y x = false) c

/-- `trampoline` (quantiles.cu lines 174-236), embedded faithfully including
the literal `quantile >= 0.0` second guard on the unsorted path. -/
def trampoline (c : Column) (quantile : ℚ) (is_sorted : Bool) (o : Order)
    (no : NullOrder) (interp : Interpolation) : ℚ :=
  if size c = 1 then dataAt c 0
  else if is_sorted = false then
    if quantile ≤ 0 then extremaMin c o no
    else if 0 ≤ quantile then extremaMax c o no
    else
      let sorted_col := sortColumn c o no
      let off := if no = NullOrder.after then 0 else null_count sorted_col
      select_quantile (fun i => dataAt sorted_col (off + i)) id
        (size c - null_count c) quantile interp
  else
    let off := if no = NullOrder.after then 0 else null_count c
    select_quantile (fun i => dataAt c (off + i)) id
      (size c - null_count c) quantile interp

/-- The result scalar: a (value, is_valid) box. -/
structure ResultScalar where
  value : ℚ
  isValid : Bool
deriving DecidableEq

/-- `quantiles` (quantiles.cu lines 274-294): per column, all-null columns
short-circuit to an invalid zero scalar; otherwise the per-column order and
null placement are read by unchecked vector indexing (an out-of-range access
is undefined behaviour, modelled as `none`) and the driver runs.  The value
scalar's validity bit is modelled from the spec: the scalar container
constructed from a value alone is valid. -/
def quantiles (tbl : List Column) (quantile : ℚ) (interp : Interpolation)
    (is_sorted : Bool) (orders : List Order) (null_orders : List NullOrder) :
    List (Option ResultScalar) :=
  (List.range tbl.length).map (fun i =>
    let c := tbl.getD i []
    if size c = null_count c then some ⟨0, false⟩
    else
      match orders[i]?, null_orders[i]? with
      | some o, some no =>
          some ⟨trampoline c quantile is_sorted o no interp, true⟩
      | _, _ => none)

/-! ## Concrete columns used as test inputs -/

/-- The spec's concrete scenario column `[3,1,4,1,5]`, no nulls. -/
def col31415 : Column := [(3,true),(1,true),(4,true),(1,true),(5,true)]

/-- The pre-sorted column `[1,1,3,4,5]`, no nulls. -/
def col11345 : Column := [(1,true),(1,true),(3,true),(4,true),(5,true)]

/-- A nullable column: a null slot (underlying datum 10) then a valid 5. -/
def colNullTenFive : Column := [(10,false),(5,true)]

/-- A single-slot, all-null column. -/
def allNullCol1 : Column := [(0,false)]

/-- A single-slot, all-valid column. -/
def validCol1 : Column := [(1,true)]

/-! ## Small evaluation helpers -/

lemma before_ne_after : NullOrder.before ≠ NullOrder.after := by
  intro h; cases h

lemma floor_12_over_5 : (⌊(12:ℚ)/5⌋ : ℤ) = 2 := by
  rw [Int.floor_eq_iff]; norm_num

lemma ceil_12_over_5 : (⌈(12:ℚ)/5⌉ : ℤ) = 3 := by
  rw [Int.ceil_eq_iff]; norm_num

lemma floor_two : (⌊(2:ℚ)⌋ : ℤ) = 2 := by
  rw [Int.floor_eq_iff]; norm_num

lemma ceil_two : (⌈(2:ℚ)⌉ : ℤ) = 2 := by
  rw [Int.ceil_eq_iff]; norm_num

lemma toNat_two : (2:ℤ).toNat = 2 := rfl

lemma toNat_three : (3:ℤ).toNat = 3 := rfl

/-! ## Order theory of the comparators -/

lemma ltVal_irrefl (o : Order) (a : ℚ) : ltVal o a a = false := by
  cases o <;> simp [ltVal]

lemma ltVal_asymm (o : Order) (a b : ℚ) (h : ltVal o a b = true) : ltVal o b a = false := by
  cases o <;> simp_all [ltVal] <;> linarith

lemma ltVal_neg_trans (o : Order) (a b c : ℚ) (h1 : ltVal o b a = false)
    (h2 : ltVal o c b = false) : ltVal o c a = false := by
  cases o <;> simp_all [ltVal] <;> linarith

lemma ltVal_antisymm (o : Order) (a b : ℚ) (h1 : ltVal o a b = false)
    (h2 : ltVal o b a = false) : a = b := by
  cases o <;> simp_all [ltVal] <;> linarith

lemma ltNullable_valid_valid (o : Order) (no : NullOrder) (x y : Entry)
    (hx : x.2 = true) (hy : y.2 = true) : ltNullable o no x y = ltVal o x.1 y.1 := by
  simp [ltNullable, hx, hy]

lemma ltNullable_asymm (o : Order) (no : NullOrder) (x y : Entry)
    (h : ltNullable o no x y = true) : ltNullable o no y x = false := by
  obtain ⟨a, va⟩ := x
  obtain ⟨b, vb⟩ := y
  cases va <;> cases vb <;> cases no <;> simp_all [ltNullable] <;>
    exact ltVal_asymm o a b h

lemma ltNullable_neg_trans (o : Order) (no : NullOrder) (x y z : Entry)
    (h1 : ltNullable o no y x = false) (h2 : ltNullable o no z y = false) :
    ltNullable o no z x = false := by
  obtain ⟨a, va⟩ := x
  obtain ⟨b, vb⟩ := y
  obtain ⟨c, vc⟩ := z
  cases va <;> cases vb <;> cases vc <;> cases no <;> simp_all [ltNullable] <;>
    exact ltVal_neg_trans o a b c h1 h2

/-- The fold of `thrust::min_element` returns a member of the scanned slots
that no scanned slot strictly precedes under the comparator, for every
comparator that is asymmetric and negatively transitive. -/
lemma minEntry_spec (lt : Entry → Entry → Bool)
    (hasymm : ∀ x y, lt x y = true → lt y x = false)
    (htrans : ∀ x y z, lt y x = false → lt z y = false → lt z x = false) :
    ∀ (rest : List Entry) (best : Entry),
      minEntry lt rest best ∈ best :: rest
        ∧ ∀ y ∈ best :: rest, lt y (minEntry lt rest best) = false := by
  have hirr : ∀ x, lt x x = false := by
    intro x
    cases h : lt x x with
    | false => rfl
    | true => exact h.symm.trans (hasymm x x h)
  intro rest
  induction rest with
  | nil =>
      intro best
      refine ⟨List.mem_cons_self _ _, ?_⟩
      intro y hy
      rcases List.mem_cons.mp hy with h | h
      · subst h; exact hirr y
      · cases h
  | cons e rest ih =>
      intro best
      rw [minEntry]
      by_cases hcmp : lt e best = true
      · rw [if_pos hcmp]
        obtain ⟨hmem, hmin⟩ := ih e
        constructor
        · exact List.mem_cons_of_mem best hmem
        · intro y hy
          rcases List.mem_cons.mp hy with h | h
          · rw [h]
            exact htrans (minEntry lt rest e) e best (hmin e (List.mem_cons_self e rest))
              (hasymm e best hcmp)
          · exact hmin y h
      · rw [if_neg hcmp]
        obtain ⟨hmem, hmin⟩ := ih best
        have hcmpf : lt e best = false := by
          cases h : lt e best with
          | false => rfl
          | true => exact absurd h hcmp
        constructor
        · rcases List.mem_cons.mp hmem with h | h
          · rw [h]
            exact List.mem_cons_self best (e :: rest)
          · exact List.mem_cons_of_mem _ (List.mem_cons_of_mem _ h)
        · intro y hy
          rcases List.mem_cons.mp hy with h | h
          · rw [h]
            exact hmin best (List.mem_cons_self best rest)
          · rcases List.mem_cons.mp h with h2 | h2
            · rw [h2]
              exact htrans (minEntry lt rest best) best e
                (hmin best (List.mem_cons_self best rest)) hcmpf
            · exact hmin y (List.mem_cons_of_mem _ h2)

/-- The head of the modelled stable sort is a slot of the column that no slot
of the column strictly precedes under the nullable comparator. -/
lemma sortColumn_head_min (c : Column) (o : Order) (no : NullOrder) (hne : c ≠ []) :
    (sortColumn c o no).headD (0, true) ∈ c
      ∧ ∀ y ∈ c, ltNullable o no y ((sortColumn c o no).headD (0, true)) = false := by
  have hirr : ∀ x, ltNullable o no x x = false := by
    intro x
    cases h : ltNullable o no x x with
    | false => rfl
    | true => exact h.symm.trans (ltNullable_asymm o no x x h)
  haveI htot : IsTotal Entry (fun x y => ltNullable o no y x = false) := by
    constructor
    intro x y
    cases h : ltNullable o no y x with
    | false => exact Or.inl rfl
    | true => exact Or.inr (ltNullable_asymm o no y x h)
  haveI htr : IsTrans Entry (fun x y => ltNullable o no y x = false) := by
    constructor
    intro a b c h1 h2
    exact ltNullable_neg_trans o no a b c h1 h2
  have hsorted := List.sorted_insertionSort (fun x y => ltNullable o no y x = false) c
  have hperm := List.perm_insertionSort (fun x y => ltNullable o no y x = false) c
  rw [show List.insertionSort (fun x y => ltNullable o no y x = false) c = sortColumn c o no
    from rfl] at hsorted hperm
  cases hs : sortColumn c o no with
  | nil =>
      exfalso
      rw [hs] at hperm
      have hlen := hperm.length_eq
      simp only [List.length_nil] at hlen
      exact hne (List.length_eq_zero.mp hlen.symm)
  | cons h t =>
      rw [hs] at hsorted hperm
      constructor
      · exact hperm.mem_iff.mp (List.mem_cons_self h t)
      · intro y hy
        have hy2 : y ∈ h :: t := hperm.mem_iff.mpr hy
        rcases List.mem_cons.mp hy2 with h2 | h2
        · subst h2; exact hirr _
        · exact List.rel_of_sorted_cons hsorted y h2

/-! ## Extrema correctness on the reachable configurations -/

lemma all_valid_of_null_count_zero (c : Column) (h : null_count c = 0) :
    ∀ e ∈ c, e.2 = true := by
  intro e he
  have h2 := List.countP_eq_zero.mp h e he
  simpa using h2

lemma not_all_null_of_valid (c : Column) (hvalid : ∃ e ∈ c, e.2 = true) :
    ¬ size c = null_count c := by
  intro h
  obtain ⟨e, he, hv⟩ := hvalid
  simp only [size, null_count] at h
  have h2 := List.countP_eq_length.mp h.symm e he
  simp [hv] at h2

lemma nullable_false_iff (c : Column) : nullable c = false ↔ null_count c = 0 := by
  simp [nullable, Nat.pos_iff_ne_zero]

/-- On every column with at least one valid slot, when the column is
non-nullable or nulls are placed after, the min-extrema fallback returns the
value of a valid slot that is minimal under the ordering direction among all
valid slots, and that value is the value of the head of the stably sorted
column. -/
lemma extremaMin_min (c : Column) (o : Order) (no : NullOrder)
    (hvalid : ∃ e ∈ c, e.2 = true)
    (hside : null_count c = 0 ∨ no = NullOrder.after) :
    ∃ m : Entry, m ∈ c ∧ m.2 = true ∧ extremaMin c o no = m.1
      ∧ (∀ e ∈ c, e.2 = true → ltVal o e.1 m.1 = false)
      ∧ ((sortColumn c o no).headD (0, true)).1 = m.1 := by
  obtain ⟨e0, he0, hv0⟩ := hvalid
  cases c with
  | nil => cases he0
  | cons a rest =>
    have hprops : (∀ x y, colCmp (a :: rest) o no x y = true →
          colCmp (a :: rest) o no y x = false)
        ∧ (∀ x y z, colCmp (a :: rest) o no y x = false →
            colCmp (a :: rest) o no z y = false → colCmp (a :: rest) o no z x = false) := by
      unfold colCmp
      by_cases hn : nullable (a :: rest) = true
      · rw [if_pos hn]
        exact ⟨fun x y h => ltNullable_asymm o no x y h,
          fun x y z h1 h2 => ltNullable_neg_trans o no x y z h1 h2⟩
      · rw [if_neg hn]
        exact ⟨fun x y h => ltVal_asymm o _ _ h,
          fun x y z h1 h2 => ltVal_neg_trans o _ _ _ h1 h2⟩
    obtain ⟨hmem, hmin⟩ :=
      minEntry_spec (colCmp (a :: rest) o no) hprops.1 hprops.2 rest a
    set m := minEntry (colCmp (a :: rest) o no) rest a with hm
    have hnf : ¬ nullable (a :: rest) = true → null_count (a :: rest) = 0 := by
      intro hn
      refine (nullable_false_iff _).mp ?_
      revert hn
      cases nullable (a :: rest) <;> simp
    have hm2 : m.2 = true := by
      rcases hside with h0 | hafter
      · exact all_valid_of_null_count_zero _ h0 m hmem
      · by_cases hn : nullable (a :: rest) = true
        · cases hmv : m.2 with
          | true => rfl
          | false =>
            exfalso
            have hlt : colCmp (a :: rest) o no e0 m = true := by
              unfold colCmp
              rw [if_pos hn]
              simp [ltNullable, hv0, hmv, hafter]
            have hfalse := hmin e0 he0
            rw [hfalse] at hlt
            cases hlt
        · exact all_valid_of_null_count_zero _ (hnf hn) m hmem
    have hminv : ∀ e ∈ (a :: rest), e.2 = true → ltVal o e.1 m.1 = false := by
      intro e he hev
      have h := hmin e he
      by_cases hn : nullable (a :: rest) = true
      · unfold colCmp at h
        rw [if_pos hn] at h
        rwa [ltNullable_valid_valid o no e m hev hm2] at h
      · unfold colCmp at h
        rw [if_neg hn] at h
        exact h
    obtain ⟨hh_mem, hh_min⟩ := sortColumn_head_min (a :: rest) o no (by simp)
    set hd := (sortColumn (a :: rest) o no).headD (0, true) with hhd
    have hhd2 : hd.2 = true := by
      rcases hside with h0 | hafter
      · exact all_valid_of_null_count_zero _ h0 hd hh_mem
      · cases hh : hd.2 with
        | true => rfl
        | false =>
          exfalso
          have hlt : ltNullable o no e0 hd = true := by
            simp [ltNullable, hv0, hh, hafter]
          have hfalse := hh_min e0 he0
          rw [hfalse] at hlt
          cases hlt
    have h1 : ltVal o hd.1 m.1 = false := hminv hd hh_mem hhd2
    have h2 : ltVal o m.1 hd.1 = false := by
      have h := hh_min m hmem
      rwa [ltNullable_valid_valid o no m hd hm2 hhd2] at h
    exact ⟨m, hmem, hm2, rfl, hminv, ltVal_antisymm o hd.1 m.1 h1 h2⟩

/-- Unfolding of `quantiles` on a one-column table that is not all-null. -/
lemma quantiles_singleton (c : Column) (q : ℚ) (interp : Interpolation) (srt : Bool)
    (o : Order) (no : NullOrder) (h : ¬ size c = null_count c) :
    quantiles [c] q interp srt [o] [no]
      = [some ⟨trampoline c q srt o no interp, true⟩] := by
  simp [quantiles, List.range_succ, h]

/-! ## Claim theorems -/

/-- C1: FALSE of the code as stated — the second boundary guard of
`trampoline` (quantiles.cu line 203) tests `quantile >= 0.0`, not `>= 1.0`,
so every quantile strictly greater than 0 on an unsorted column takes the
max-extrema fallback; the sort-and-interpolate branch is unreachable.  This
theorem exhibits the divergence: for every interior quantile the unsorted
driver returns the extrema fallback instead of sorting. -/
theorem unsorted_interior_quantile_takes_extrema_max
    (c : Column) (q : ℚ) (o : Order) (no : NullOrder) (interp : Interpolation)
    (hsz : size c ≠ 1) (h0 : 0 < q) (h1 : q < 1) :
    trampoline c q false o no interp = extremaMax c o no := by
  rw [trampoline, if_neg hsz, if_pos rfl, if_neg (not_le.mpr h0), if_pos h0.le]

/-- Witness for C1: the unsorted column `[3,1,4,1,5]` at the interior
quantile 1/2 takes the max-extrema path. -/
theorem unsorted_interior_quantile_takes_extrema_max_witness :
    size col31415 ≠ 1 ∧ 0 < (1/2 : ℚ) ∧ (1/2 : ℚ) < 1 ∧
      trampoline col31415 (1/2) false Order.ascending NullOrder.after Interpolation.linear
        = extremaMax col31415 Order.ascending NullOrder.after :=
  ⟨by norm_num [size, col31415], by norm_num, by norm_num,
    unsorted_interior_quantile_takes_extrema_max col31415 (1/2) Order.ascending NullOrder.after
      Interpolation.linear (by norm_num [size, col31415]) (by norm_num) (by norm_num)⟩

/-- C2: FALSE of the code as stated — for the pre-sorted column `[1,1,3,4,5]`
at quantile 1/2 with LINEAR interpolation, the `is_sorted = true` path returns
3, while sorting the same data through the external engine and calling with
`is_sorted = false` returns 5 (the max-extrema path, reached because of the
`quantile >= 0.0` guard).  The two call paths are not referentially
equivalent. -/
theorem presorted_path_differs_from_external_sort_path :
    quantiles [col11345] (1/2) Interpolation.linear true [Order.ascending] [NullOrder.after]
        = [some ⟨3, true⟩]
      ∧ quantiles [sortColumn col11345 Order.ascending NullOrder.after] (1/2)
          Interpolation.linear false [Order.ascending] [NullOrder.after] = [some ⟨5, true⟩]
      ∧ (3:ℚ) ≠ 5 := by
  refine ⟨?_, ?_, by norm_num⟩
  · norm_num [quantiles, List.range_succ, trampoline, size, col11345, select_quantile,
      quantile_index, interpolate.linear, nullable, null_count, dataAt,
      List.countP, List.countP.go, min_def, max_def, floor_two, ceil_two, toNat_two]
  · norm_num [quantiles, List.range_succ, trampoline, size, col11345, sortColumn,
      List.insertionSort, List.orderedInsert, ltNullable, ltVal, extremaMax, maxEntry, colCmp,
      nullable, null_count, dataAt, List.countP, List.countP.go]

/-- C3 counterexample: FALSE of the code as stated for nullable columns with
nulls-before placement — at quantile 0 on the unsorted column
`[null(10), 5]` with nulls-before, the comparator places the null first, so
the extrema fallback reads the raw datum 10 under the null slot, while
position 0 of the valid window of a full sort holds 5. -/
theorem quantile_zero_nulls_before_counterexample :
    quantiles [colNullTenFive] 0 Interpolation.linear false [Order.ascending] [NullOrder.before]
        = [some ⟨10, true⟩]
      ∧ ((sortColumn colNullTenFive Order.ascending NullOrder.before).getD
          (null_count colNullTenFive) ((0:ℚ), true)).1 = 5
      ∧ (10:ℚ) ≠ 5 := by
  refine ⟨?_, ?_, by norm_num⟩
  · norm_num [quantiles, List.range_succ, trampoline, size, colNullTenFive, extremaMin, minEntry,
      colCmp, nullable, null_count, ltNullable, ltVal, dataAt, List.countP, List.countP.go,
      before_ne_after]
  · norm_num [sortColumn, colNullTenFive, null_count, List.countP, List.countP.go,
      List.insertionSort, List.orderedInsert, ltNullable, ltVal, before_ne_after]

/-- C3 amended: for quantile 0 on every unsorted column with at least one
valid slot that is non-nullable or has nulls-after placement, the result is a
valid scalar holding the value of a valid slot that is minimal under the
configured order among all valid slots, and it equals the value at position 0
of the valid window of a full sort (which is the sorted head for these null
placements). -/
theorem quantile_zero_min_amended (c : Column) (o : Order) (no : NullOrder)
    (interp : Interpolation)
    (hvalid : ∃ e ∈ c, e.2 = true)
    (hside : null_count c = 0 ∨ no = NullOrder.after) :
    ∃ v : ℚ,
      quantiles [c] 0 interp false [o] [no] = [some ⟨v, true⟩]
        ∧ (∃ e ∈ c, e.2 = true ∧ e.1 = v)
        ∧ (∀ e ∈ c, e.2 = true → ltVal o e.1 v = false)
        ∧ ((sortColumn c o no).headD (0, true)).1 = v := by
  have hnotall : ¬ size c = null_count c := not_all_null_of_valid c hvalid
  rw [quantiles_singleton c 0 interp false o no hnotall]
  by_cases hsz : size c = 1
  · obtain ⟨e, rfl⟩ : ∃ e, c = [e] := List.length_eq_one.mp hsz
    obtain ⟨e0, he0, hv0⟩ := hvalid
    have he : e0 = e := by simpa using he0
    subst he
    refine ⟨e0.1, ?_, ⟨e0, by simp, hv0, rfl⟩, ?_, ?_⟩
    · simp [trampoline, hsz, dataAt]
    · intro e he hev
      have h2 : e = e0 := by simpa using he
      rw [h2]
      exact ltVal_irrefl o e0.1
    · simp [sortColumn, List.insertionSort, List.orderedInsert]
  · obtain ⟨m, hmem, hm2, hext, hminv, hhead⟩ := extremaMin_min c o no hvalid hside
    refine ⟨m.1, ?_, ⟨m, hmem, hm2, rfl⟩, hminv, hhead⟩
    rw [trampoline, if_neg hsz, if_pos rfl, if_pos (le_refl (0:ℚ)), hext]

/-- Witness for C3 (amended) at the unsorted non-nullable column `[(2,1)]`
with ascending order and nulls-after placement. -/
theorem quantile_zero_min_amended_witness :
    (∃ e ∈ ([(2,true),(1,true)] : Column), e.2 = true)
      ∧ (null_count ([(2,true),(1,true)] : Column) = 0 ∨ NullOrder.after = NullOrder.after)
      ∧ ∃ v : ℚ,
          quantiles [([(2,true),(1,true)] : Column)] 0 Interpolation.linear false
              [Order.ascending] [NullOrder.after] = [some ⟨v, true⟩]
            ∧ (∃ e ∈ ([(2,true),(1,true)] : Column), e.2 = true ∧ e.1 = v)
            ∧ (∀ e ∈ ([(2,true),(1,true)] : Column), e.2 = true → ltVal Order.ascending e.1 v = false)
            ∧ ((sortColumn ([(2,true),(1,true)] : Column) Order.ascending NullOrder.after).headD
                (0, true)).1 = v :=
  ⟨⟨(2,true), by simp, rfl⟩, Or.inr rfl,
    quantile_zero_min_amended [(2,true),(1,true)] Order.ascending NullOrder.after
      Interpolation.linear ⟨(2,true), by simp, rfl⟩ (Or.inr rfl)⟩

/-- C4: FALSE of the code as stated — on the unsorted column `[3,1,4,1,5]`
with quantile 3/5 and LINEAR interpolation the code returns 5 (the
max-extrema path taken because of the `quantile >= 0.0` guard), not the
claimed 3.4 = 17/5; the interpolated value 17/5 is what the same engine
produces on the sorted data through the `is_sorted = true` path. -/
theorem concrete_sixty_percent_quantile_code_bug :
    trampoline col31415 (3/5) false Order.ascending NullOrder.after Interpolation.linear = 5
      ∧ trampoline (sortColumn col31415 Order.ascending NullOrder.after) (3/5) true
          Order.ascending NullOrder.after Interpolation.linear = 17/5
      ∧ (5:ℚ) ≠ 17/5 := by
  refine ⟨?_, ?_, by norm_num⟩
  · norm_num [trampoline, size, col31415, extremaMax, maxEntry, colCmp, nullable, null_count,
      ltNullable, ltVal, dataAt, List.countP, List.countP.go]
  · norm_num [trampoline, size, col31415, sortColumn, List.insertionSort, List.orderedInsert,
      ltNullable, ltVal, nullable, null_count, dataAt, select_quantile, quantile_index,
      interpolate.linear, List.countP, List.countP.go, min_def, max_def, floor_12_over_5,
      ceil_12_over_5, toNat_two, toNat_three]

/-- C5: for every column of size 1 whose element is valid, the result is that
element (as a valid scalar), for every quantile, interpolation mode, sorted
flag, order and null placement: `trampoline` short-circuits on size 1. -/
theorem single_element_column_result (v q : ℚ) (interp : Interpolation) (srt : Bool)
    (o : Order) (no : NullOrder) :
    quantiles [[(v, true)]] q interp srt [o] [no] = [some ⟨v, true⟩] := by
  norm_num [quantiles, List.range_succ, trampoline, size, null_count, dataAt,
    List.countP, List.countP.go]

/-- C8 helper: the clamped quantile is in [0,1]. -/
lemma clamped_nonneg (q : ℚ) : 0 ≤ min (max q 0) 1 :=
  le_min (le_max_right q 0) zero_le_one

lemma clamped_le_one (q : ℚ) : min (max q 0) 1 ≤ 1 := min_le_right _ _

lemma nearbyint_floor_or_ceil (x : ℚ) : nearbyint x = ⌊x⌋ ∨ nearbyint x = ⌈x⌉ := by
  simp only [nearbyint]
  split_ifs with h1 h2 h3
  · exact Or.inl rfl
  · exact Or.inr rfl
  · exact Or.inl rfl
  · exact Or.inr rfl

lemma quantile_index_bounds (count : Nat) (q : ℚ) (h : 1 ≤ count) :
    0 ≤ (quantile_index count q).lower_bound
      ∧ (quantile_index count q).lower_bound ≤ (quantile_index count q).upper_bound
      ∧ (quantile_index count q).upper_bound < (count : ℤ)
      ∧ 0 ≤ (quantile_index count q).fraction
      ∧ (quantile_index count q).fraction < 1 := by
  have hc : (0:ℚ) ≤ (count : ℚ) - 1 := by
    have h2 : (1:ℚ) ≤ (count : ℚ) := by exact_mod_cast h
    linarith
  have hv0 : 0 ≤ min (max q 0) 1 * ((count : ℚ) - 1) :=
    mul_nonneg (clamped_nonneg q) hc
  have hv1 : min (max q 0) 1 * ((count : ℚ) - 1) ≤ (count : ℚ) - 1 := by
    calc min (max q 0) 1 * ((count : ℚ) - 1) ≤ 1 * ((count : ℚ) - 1) :=
          mul_le_mul_of_nonneg_right (clamped_le_one q) hc
      _ = (count : ℚ) - 1 := one_mul _
  simp only [quantile_index]
  refine ⟨Int.floor_nonneg.mpr hv0, Int.floor_le_ceil _, ?_, ?_, ?_⟩
  · have hle : (⌈min (max q 0) 1 * ((count : ℚ) - 1)⌉ : ℤ) ≤ (count : ℤ) - 1 := by
      apply Int.ceil_le.mpr
      push_cast
      exact hv1
    omega
  · have hfl := Int.floor_le (min (max q 0) 1 * ((count : ℚ) - 1))
    linarith
  · have hfl := Int.lt_floor_add_one (min (max q 0) 1 * ((count : ℚ) - 1))
    linarith

lemma quantile_index_nearest_mem (count : Nat) (q : ℚ) :
    (quantile_index count q).nearest = (quantile_index count q).lower_bound
      ∨ (quantile_index count q).nearest = (quantile_index count q).upper_bound := by
  simp only [quantile_index]
  exact nearbyint_floor_or_ceil _

lemma quantile_index_upper_le (count : Nat) (q : ℚ) :
    (quantile_index count q).upper_bound ≤ (quantile_index count q).lower_bound + 1 := by
  simp only [quantile_index]
  exact Int.ceil_le_floor_add_one _

lemma nearbyint_zero : nearbyint 0 = 0 := by
  simp [nearbyint]

/-- C8: for every count ≥ 1 and every quantile, the computed QuantileIndex
satisfies `0 ≤ lower_bound ≤ upper_bound < count` and `fraction ∈ [0,1)`;
and whenever the valid count is below two, `select_quantile` short-circuits
to the first element without computing the index (its result does not mention
the quantile or the interpolation mode). -/
theorem quantile_index_invariant_and_short_circuit (count : Nat) (q : ℚ) (h : 1 ≤ count) :
    (0 ≤ (quantile_index count q).lower_bound
      ∧ (quantile_index count q).lower_bound ≤ (quantile_index count q).upper_bound
      ∧ (quantile_index count q).upper_bound < (count : ℤ)
      ∧ 0 ≤ (quantile_index count q).fraction
      ∧ (quantile_index count q).fraction < 1)
    ∧ (∀ (get : Nat → ℚ) (sortmap : Nat → Nat) (interp : Interpolation),
        count < 2 → select_quantile get sortmap count q interp = get 0) := by
  refine ⟨quantile_index_bounds count q h, ?_⟩
  intro get sortmap interp hlt
  rw [select_quantile, if_pos hlt]

/-- Witness for C8 at count 1 and quantile 1/2. -/
theorem quantile_index_invariant_and_short_circuit_witness :
    (0 ≤ (quantile_index 1 (1/2)).lower_bound
      ∧ (quantile_index 1 (1/2)).lower_bound ≤ (quantile_index 1 (1/2)).upper_bound
      ∧ (quantile_index 1 (1/2)).upper_bound < ((1:Nat) : ℤ)
      ∧ 0 ≤ (quantile_index 1 (1/2)).fraction
      ∧ (quantile_index 1 (1/2)).fraction < 1)
    ∧ select_quantile (fun j => (42:ℚ)) id 1 (1/2) Interpolation.linear = 42 :=
  ⟨(quantile_index_invariant_and_short_circuit 1 (1/2) (by norm_num)).1,
    (quantile_index_invariant_and_short_circuit 1 (1/2) (by norm_num)).2
      (fun j => (42:ℚ)) id Interpolation.linear (by norm_num)⟩

/-- C7: for LOWER and HIGHER interpolation the result of `select_quantile`
over a valid window is an actual element of the window; for NEAREST it is the
element at the `nearest` index, and `nearest` is within ±1 of both
`lower_bound` and `upper_bound`. -/
theorem lower_higher_nearest_round_trip (w : List ℚ) (q : ℚ) (hw : w ≠ []) :
    select_quantile (fun i => w.getD i 0) id w.length q Interpolation.lower ∈ w
      ∧ select_quantile (fun i => w.getD i 0) id w.length q Interpolation.higher ∈ w
      ∧ select_quantile (fun i => w.getD i 0) id w.length q Interpolation.nearest
          = w.getD (quantile_index w.length q).nearest.toNat 0
      ∧ ((quantile_index w.length q).nearest
          - (quantile_index w.length q).lower_bound).natAbs ≤ 1
      ∧ ((quantile_index w.length q).nearest
          - (quantile_index w.length q).upper_bound).natAbs ≤ 1 := by
  have hlen : 1 ≤ w.length := List.length_pos.mpr hw
  obtain ⟨hl0, hlu, hu, _, _⟩ := quantile_index_bounds w.length q hlen
  have hnm := quantile_index_nearest_mem w.length q
  have hul := quantile_index_upper_le w.length q
  have habs1 : ((quantile_index w.length q).nearest
      - (quantile_index w.length q).lower_bound).natAbs ≤ 1 := by
    rcases hnm with h | h <;> rw [h] <;> omega
  have habs2 : ((quantile_index w.length q).nearest
      - (quantile_index w.length q).upper_bound).natAbs ≤ 1 := by
    rcases hnm with h | h <;> rw [h] <;> omega
  by_cases hsz : w.length < 2
  · have h1 : w.length = 1 := by omega
    obtain ⟨a, rfl⟩ := List.length_eq_one.mp h1
    have hq : (quantile_index ([a] : List ℚ).length q).nearest = 0 := by
      simp only [List.length_singleton, quantile_index, Nat.cast_one, sub_self, mul_zero]
      exact nearbyint_zero
    refine ⟨?_, ?_, ?_, habs1, habs2⟩
    · rw [select_quantile, if_pos hsz]
      simp [List.getD]
    · rw [select_quantile, if_pos hsz]
      simp [List.getD]
    · rw [select_quantile, if_pos hsz, hq]
      rfl
  · have h2 : 2 ≤ w.length := by omega
    have hlow : (quantile_index w.length q).lower_bound.toNat < w.length := by omega
    have hhigh : (quantile_index w.length q).upper_bound.toNat < w.length := by omega
    refine ⟨?_, ?_, ?_, habs1, habs2⟩
    · rw [select_quantile, if_neg hsz]
      show w.getD (quantile_index w.length q).lower_bound.toNat 0 ∈ w
      rw [List.getD_eq_getElem w 0 hlow]
      exact List.getElem_mem hlow
    · rw [select_quantile, if_neg hsz]
      show w.getD (quantile_index w.length q).upper_bound.toNat 0 ∈ w
      rw [List.getD_eq_getElem w 0 hhigh]
      exact List.getElem_mem hhigh
    · rw [select_quantile, if_neg hsz]
      rfl

/-- Witness for C7 at the window `[1, 2]` and quantile 1/4. -/
theorem lower_higher_nearest_round_trip_witness :
    select_quantile (fun i => ([1, 2] : List ℚ).getD i 0) id ([1, 2] : List ℚ).length (1/4)
        Interpolation.lower ∈ ([1, 2] : List ℚ)
      ∧ select_quantile (fun i => ([1, 2] : List ℚ).getD i 0) id ([1, 2] : List ℚ).length (1/4)
          Interpolation.higher ∈ ([1, 2] : List ℚ)
      ∧ select_quantile (fun i => ([1, 2] : List ℚ).getD i 0) id ([1, 2] : List ℚ).length (1/4)
          Interpolation.nearest
          = ([1, 2] : List ℚ).getD (quantile_index ([1, 2] : List ℚ).length (1/4)).nearest.toNat 0
      ∧ ((quantile_index ([1, 2] : List ℚ).length (1/4)).nearest
          - (quantile_index ([1, 2] : List ℚ).length (1/4)).lower_bound).natAbs ≤ 1
      ∧ ((quantile_index ([1, 2] : List ℚ).length (1/4)).nearest
          - (quantile_index ([1, 2] : List ℚ).length (1/4)).upper_bound).natAbs ≤ 1 :=
  lower_higher_nearest_round_trip [1, 2] (1/4) (by simp)

/-- C9 counterexample: FALSE of the code as stated — `quantiles` performs no
length validation: called on a one-column table of an all-null column with
empty order and null-placement vectors (lengths 0 ≠ 1), it does not fail
fast; it produces the result list `[(0, invalid)]`. -/
theorem length_mismatch_not_rejected :
    ([] : List Order).length ≠ ([allNullCol1] : List Column).length
      ∧ quantiles [allNullCol1] (1/2) Interpolation.linear false [] [] = [some ⟨0, false⟩] := by
  refine ⟨by norm_num, ?_⟩
  norm_num [quantiles, List.range_succ, size, null_count, allNullCol1,
    List.countP, List.countP.go]

/-- C9 amended: `quantiles` never validates the vector lengths.  With
mismatched (empty) vectors, an all-null column still produces its invalid
zero scalar, while a non-all-null column reaches the unchecked per-column
vector access, which is out of bounds (undefined behaviour, modelled as
`none`) — no precondition-violation error exists on either path. -/
theorem length_mismatch_unchecked_access :
    quantiles [allNullCol1] (1/2) Interpolation.linear false [] [] = [some ⟨0, false⟩]
      ∧ quantiles [validCol1] (1/2) Interpolation.linear false [] [] = [none] := by
  constructor
  · norm_num [quantiles, List.range_succ, size, null_count, allNullCol1,
      List.countP, List.countP.go]
  · norm_num [quantiles, List.range_succ, size, null_count, validCol1,
      List.countP, List.countP.go]

/-- C6: for every table whose per-column vectors match the column count, each
column yields exactly one scalar whose validity flag is false exactly when
that column is entirely null; an all-null column yields the invalid zero
scalar regardless of quantile, interpolation mode, size or sorted flag,
before the per-column driver or the type dispatch is reached. -/
theorem validity_iff_all_null (tbl : List Column) (q : ℚ) (interp : Interpolation)
    (srt : Bool) (orders : List Order) (nos : List NullOrder)
    (ho : orders.length = tbl.length) (hn : nos.length = tbl.length)
    (i : Nat) (hi : i < tbl.length) :
    ∃ s : ResultScalar,
      (quantiles tbl q interp srt orders nos).getD i none = some s
        ∧ (s.isValid = false ↔ size (tbl.getD i []) = null_count (tbl.getD i []))
        ∧ (size (tbl.getD i []) = null_count (tbl.getD i []) → s = ⟨0, false⟩) := by
  have hget : (quantiles tbl q interp srt orders nos).getD i none
      = (if size (tbl.getD i []) = null_count (tbl.getD i [])
          then some (⟨0, false⟩ : ResultScalar)
          else match orders[i]?, nos[i]? with
            | some o, some no =>
                some ⟨trampoline (tbl.getD i []) q srt o no interp, true⟩
            | _, _ => none) := by
    rw [quantiles, List.getD_eq_getElem?_getD, List.getElem?_map, List.getElem?_range hi]
    rfl
  by_cases hall : size (tbl.getD i []) = null_count (tbl.getD i [])
  · refine ⟨⟨0, false⟩, ?_, ?_, fun _ => rfl⟩
    · rw [hget, if_pos hall]
    · exact iff_of_true rfl hall
  · have hio : i < orders.length := ho ▸ hi
    have hin : i < nos.length := hn ▸ hi
    refine ⟨⟨trampoline (tbl.getD i []) q srt orders[i] nos[i] interp, true⟩, ?_, ?_,
      fun h => absurd h hall⟩
    · rw [hget, if_neg hall, List.getElem?_eq_getElem hio, List.getElem?_eq_getElem hin]
    · exact iff_of_false (by simp) hall

/-- Witness for C6 at the one-column table of an all-null column. -/
theorem validity_iff_all_null_witness :
    ∃ s : ResultScalar,
      (quantiles [[((1:ℚ),false)]] (1/2) Interpolation.linear false [Order.ascending]
          [NullOrder.after]).getD 0 none = some s
        ∧ (s.isValid = false ↔ size (([[((1:ℚ),false)]] : List Column).getD 0 [])
            = null_count (([[((1:ℚ),false)]] : List Column).getD 0 []))
        ∧ (size (([[((1:ℚ),false)]] : List Column).getD 0 [])
            = null_count (([[((1:ℚ),false)]] : List Column).getD 0 []) → s = ⟨0, false⟩) :=
  validity_iff_all_null [[((1:ℚ),false)]] (1/2) Interpolation.linear false [Order.ascending]
    [NullOrder.after] rfl rfl 0 (by norm_num)

/-- Column of size `junk.length + 1` with exactly one valid slot holding `v`,
the null slots (with arbitrary underlying data `junk`) placed on the side the
null placement asserts for a sorted column. -/
def oneValidCol (no : NullOrder) (v : ℚ) (junk : List ℚ) : Column :=
  match no with
  | NullOrder.after => (v, true) :: junk.map (fun g => (g, false))
  | NullOrder.before => junk.map (fun g => (g, false)) ++ [(v, true)]

lemma oneValidCol_size (no : NullOrder) (v : ℚ) (junk : List ℚ) :
    size (oneValidCol no v junk) = junk.length + 1 := by
  cases no <;> simp [oneValidCol, size]

lemma oneValidCol_null_count (no : NullOrder) (v : ℚ) (junk : List ℚ) :
    null_count (oneValidCol no v junk) = junk.length := by
  cases no <;>
    simp [oneValidCol, null_count, List.countP_append, List.countP_cons, List.countP_map,
      Function.comp_def]

/-- The `is_sorted = true` path of `trampoline` on columns of size other
than 1: offset by the null placement, then `select_quantile` over the valid
count. -/
lemma trampoline_sorted (c : Column) (q : ℚ) (o : Order) (no : NullOrder)
    (interp : Interpolation) (hsz : size c ≠ 1) :
    trampoline c q true o no interp
      = select_quantile
          (fun i => dataAt c ((if no = NullOrder.after then 0 else null_count c) + i)) id
          (size c - null_count c) q interp := by
  rw [trampoline, if_neg hsz, if_neg (by simp : ¬ (true = false))]

/-- C10: for every column of size ≥ 2 with exactly one valid element placed
consistently with the asserted null placement, calling with
`is_sorted = true` returns that element as a valid scalar for every quantile
and interpolation mode: the valid count is 1, the null-placement offset
points the window at the valid slot, and `select_quantile` short-circuits. -/
theorem one_valid_element_presorted_result (v : ℚ) (junk : List ℚ) (no : NullOrder)
    (o : Order) (q : ℚ) (interp : Interpolation) (hj : junk ≠ []) :
    quantiles [oneValidCol no v junk] q interp true [o] [no] = [some ⟨v, true⟩] := by
  have hnc := oneValidCol_null_count no v junk
  have hsz := oneValidCol_size no v junk
  have hjl : junk.length ≠ 0 := fun h => hj (List.length_eq_zero.mp h)
  have hnotall : ¬ size (oneValidCol no v junk) = null_count (oneValidCol no v junk) := by
    omega
  have hone : ¬ size (oneValidCol no v junk) = 1 := by omega
  have hcount : size (oneValidCol no v junk) - null_count (oneValidCol no v junk) = 1 := by
    omega
  rw [quantiles_singleton _ q interp true o no hnotall,
    trampoline_sorted _ q o no interp hone, hcount, select_quantile,
    if_pos (by norm_num : (1:Nat) < 2)]
  cases no with
  | after => simp [oneValidCol, dataAt]
  | before =>
      simp only [if_neg before_ne_after, Nat.add_zero, hnc]
      have hlen : (junk.map (fun g => ((g:ℚ), false))).length = junk.length := by simp
      simp [oneValidCol, dataAt, List.getD_eq_getElem?_getD,
        List.getElem?_append_right (le_of_eq hlen), hlen]

/-- Witness for C10 at the column `[null(9), 7]` with nulls-before. -/
theorem one_valid_element_presorted_result_witness :
    quantiles [oneValidCol NullOrder.before 7 [9]] (1/3) Interpolation.higher true
        [Order.ascending] [NullOrder.before] = [some ⟨7, true⟩] :=
  one_valid_element_presorted_result 7 [9] NullOrder.before Order.ascending (1/3)
    Interpolation.higher (by simp)

end CudfQuantiles
